import Mathlib

/-!
Verification of the conflict-diagnosis subsystem exposed by
`src/libmambapy/src/libmambapy/bindings/legacy.cpp`.

The bound C++ classes (`ProblemsGraph`, its `conflicts_t` ConflictMap,
`CompressedProblemsGraph` with its list nodes and `from_problems_graph`,
the `*_trunc` display helpers and `problem_tree_msg`) are implemented in
libmamba translation units that are not part of the bound sources; only
their python bindings appear in `legacy.cpp`.  Definitions below that embed
those implementations are therefore modelled from the specification text
(sections 3, 4.1, 4.2 and 4.3) and carry a doc comment saying so.  The
binding tables themselves (method names, default arguments, which member
function each python method dispatches to) are embedded directly from
`legacy.cpp`.
-/

namespace Mamba

/-- Node variants of the problems graph (spec section 3: `Root`, `Package`,
`UnresolvedDependency`, `Constraint`). -/
inductive NodeVariant where
  | root
  | package
  | unresolvedDependency
  | constraint
deriving DecidableEq, Repr

/-- A graph node: the variant tag together with the identifying data of the
underlying entity.  Spec section 3: packages are identified by name, version,
build string and channel origin; dependency specifications are kept as their
literal string, stored here in the `name` field. -/
structure Node where
  variant : NodeVariant
  name : String
  version : String
  build_string : String
  channel : String
deriving DecidableEq, Repr

/-- The unique root node (spec section 3: exactly one per graph). -/
def Node.root : Node := ⟨NodeVariant.root, "", "", "", ""⟩

/-- Modelled from the spec: the implementation of
`ProblemsGraph::conflicts_t` (the `ConflictMap` class bound at
legacy.cpp:544-559) is not among the bound sources.  Spec section 3: a
symmetric relation over package node identifiers; `add(a, b)` records mutual
incompatibility; invariant: the relation is always symmetric and
irreflexive.  The relation is stored as a list of ordered pairs; `add`
records both orientations, and records nothing for a self pair so that the
stated irreflexivity invariant is maintained. -/
structure ConflictMap where
  pairs : List (Nat × Nat)
deriving DecidableEq, Repr

/-- The empty conflict map (the `ConflictMap()` python constructor,
legacy.cpp:545). -/
def ConflictMap.empty : ConflictMap := ⟨[]⟩

/-- Modelled from the spec: `has_conflict(a, b)` queries the relation
(spec section 3). -/
def ConflictMap.has_conflict (m : ConflictMap) (a b : Nat) : Bool :=
  decide ((a, b) ∈ m.pairs)

/-- Modelled from the spec: `add(a, b)` records mutual incompatibility
(spec section 3); both orientations are stored, and a self pair is not
recorded, keeping the relation symmetric and irreflexive. -/
def ConflictMap.add (m : ConflictMap) (a b : Nat) : ConflictMap :=
  if a = b then m else ⟨(a, b) :: (b, a) :: m.pairs⟩

/-- The python `__contains__` method of `ConflictMap` is bound to the very
same member function as `has_conflict` (legacy.cpp:554-555). -/
def ConflictMap.mem_pair (m : ConflictMap) (a b : Nat) : Bool :=
  m.has_conflict a b

/-- Modelled from the spec: `conflicts(a)` returns the set of nodes in
conflict with `a` (spec section 3). -/
def ConflictMap.conflicts_of (m : ConflictMap) (a : Nat) : List Nat :=
  ((m.pairs.filter (fun c => c.1 == a)).map (fun c => c.2)).dedup

/-- Modelled from the spec: `in_conflict(a)` queries whether `a` appears in
the relation (spec section 3). -/
def ConflictMap.in_conflict (m : ConflictMap) (a : Nat) : Bool :=
  m.pairs.any (fun c => c.1 == a)

/-- A conflict map obtained from the empty one by a sequence of `add`
operations. -/
def buildConflictMap (ops : List (Nat × Nat)) : ConflictMap :=
  ops.foldl (fun m p => m.add p.1 p.2) ConflictMap.empty

/-- The problems graph (spec section 3): the node arena (a node's identifier
is its index, assigned at insertion), the directed edges labelled with the
literal dependency-specification string that produced them, and the conflict
map. -/
structure ProblemsGraph where
  nodes : List Node
  edges : List (Nat × Nat × String)
  conflicts : ConflictMap
deriving DecidableEq, Repr

/-- Deduplication keeping the first occurrence of each element, preserving
insertion order (spec sections 3 and 4.2: collections are ordered and
duplicate free, insertion order preserved). -/
def dedupFirst {α : Type} [DecidableEq α] (l : List α) : List α :=
  l.foldl (fun acc a => if a ∈ acc then acc else acc ++ [a]) []

/-- Modelled from the spec: the truncated display helper behind the
`*_trunc` methods (spec section 4.2): optionally deduplicate the projected
values, keep at most `threshold` items in original order, and if any were
dropped append `etc` as a final element before joining with `sep`. -/
def truncDisplay (items : List String) (sep etc : String) (threshold : Nat)
    (remove_duplicates : Bool) : String :=
  let kept := if remove_duplicates then dedupFirst items else items
  let shown := if threshold < kept.length then kept.take threshold ++ [etc] else kept
  String.intercalate sep shown

/-- A list node of the compressed graph (spec section 3): the common variant
and name of the absorbed entities together with their ordered, duplicate
free collection. -/
structure ListNode where
  variant : NodeVariant
  name : String
  entities : List Node
deriving DecidableEq, Repr

/-- Modelled from the spec: `versions_trunc` projects the absorbed entities
to their version strings and truncates (spec sections 3 and 4.2). -/
def ListNode.versions_trunc (ln : ListNode) (sep etc : String) (threshold : Nat)
    (remove_duplicates : Bool) : String :=
  truncDisplay (ln.entities.map Node.version) sep etc threshold remove_duplicates

/-- Modelled from the spec: `build_strings_trunc` projects the absorbed
entities to their build strings and truncates (spec sections 3 and 4.2). -/
def ListNode.build_strings_trunc (ln : ListNode) (sep etc : String) (threshold : Nat)
    (remove_duplicates : Bool) : String :=
  truncDisplay (ln.entities.map Node.build_string) sep etc threshold remove_duplicates

/-- Modelled from the spec: `versions_and_build_strings_trunc` projects the
absorbed entities to their "version build" pairs and truncates (spec
sections 3 and 4.2). -/
def ListNode.versions_and_build_strings_trunc (ln : ListNode) (sep etc : String)
    (threshold : Nat) (remove_duplicates : Bool) : String :=
  truncDisplay (ln.entities.map (fun nd => nd.version ++ " " ++ nd.build_string))
    sep etc threshold remove_duplicates

/-- The label of node `x` under a labelling list `l` (entry `x` of `l`).
Labellings represent the in-progress partition of nodes into merge groups:
two nodes are in the same group exactly when their labels are equal. -/
def label (l : List Nat) (x : Nat) : Nat := l.getD x 0

/-- The nodes with an edge into `x` (spec section 4.2 item 3: the groups
"that point to them via an edge"). -/
def parentsOf (g : ProblemsGraph) (x : Nat) : List Nat :=
  (g.edges.filter (fun e => e.2.1 == x)).map (fun e => e.1)

/-- The nodes in conflict with `x` according to the graph's conflict map,
in either stored orientation (spec section 4.2 item 4). -/
def conflictPartnersOf (g : ProblemsGraph) (x : Nat) : List Nat :=
  (g.conflicts.pairs.filter (fun c => c.1 == x)).map (fun c => c.2) ++
    (g.conflicts.pairs.filter (fun c => c.2 == x)).map (fun c => c.1)

/-- Variant and name of node `x` (spec section 4.2 items 1 and 2: merge
candidates must share the node variant and the name). -/
def vnKey (g : ProblemsGraph) (x : Nat) : NodeVariant × String :=
  ((g.nodes.getD x Node.root).variant, (g.nodes.getD x Node.root).name)

/-- Parent signature of `x` under a labelling (spec section 4.2 item 3: the
collection of already-merged ancestor groups that point to `x` via an edge,
each pointing group counted once). -/
def parentSig (g : ProblemsGraph) (l : List Nat) (x : Nat) : Finset Nat :=
  ((parentsOf g x).map (label l)).toFinset

/-- Conflict signature of `x` under a labelling (spec section 4.2 item 4:
the set of already-merged groups `x` is in conflict with). -/
def conflictSig (g : ProblemsGraph) (l : List Nat) (x : Nat) : Finset Nat :=
  ((conflictPartnersOf g x).map (label l)).toFinset

/-- Full merge signature of `x` under a labelling: its current group, its
parent signature and its conflict signature (spec section 4.2 items 1-4;
variant and name are already separated by the starting partition and only
ever refined). -/
def sigKey (g : ProblemsGraph) (l : List Nat) (x : Nat) :
    Nat × Finset Nat × Finset Nat :=
  (label l x, parentSig g l x, conflictSig g l x)

/-- Position of the first occurrence of `a` in a list (the canonical
representative chosen for each merge group). -/
def firstPos {α : Type} [DecidableEq α] (a : α) : List α → Nat
  | [] => 0
  | b :: t => if a = b then 0 else firstPos a t + 1

/-- Modelled from the spec: the starting partition of the merge pass, by
node variant and name (spec section 4.2 items 1 and 2).  Each node is
labelled by the first node carrying the same variant and name. -/
def initLabels (g : ProblemsGraph) : List Nat :=
  (List.range g.nodes.length).map
    (fun x => firstPos (vnKey g x) ((List.range g.nodes.length).map (vnKey g)))

/-- Modelled from the spec: one refinement round of the merge-equivalence
pass (spec section 4.2): nodes stay together exactly when they agree on
their current group, their parent signature and their conflict signature.
Each node is relabelled by the first node carrying the same signature. -/
def refineStep (g : ProblemsGraph) (l : List Nat) : List Nat :=
  (List.range g.nodes.length).map
    (fun x => firstPos (sigKey g l x) ((List.range g.nodes.length).map (sigKey g l)))

/-- `k` refinement rounds applied to the starting partition. -/
def refineN (g : ProblemsGraph) : Nat → List Nat
  | 0 => initLabels g
  | k + 1 => refineStep g (refineN g k)

/-- Modelled from the spec: the merge-equivalence partition of the graph
(spec section 4.2).  Signatures refer to already-merged groups, so the
partition is the stable point of the refinement rounds; as each non-stable
round strictly increases the number of groups, `nodes.length` rounds always
reach it. -/
def finalLabels (g : ProblemsGraph) : List Nat := refineN g g.nodes.length

/-- The final group labels in first-insertion order (spec section 4.3:
group iteration order follows first-insertion order from section 4.2). -/
def groupIds (g : ProblemsGraph) : List Nat :=
  dedupFirst ((List.range g.nodes.length).map (label (finalLabels g)))

/-- The compressed-graph index of the group of node `x`. -/
def groupOf (g : ProblemsGraph) (x : Nat) : Nat :=
  firstPos (label (finalLabels g) x) (groupIds g)

/-- The member nodes of the group labelled `v`, in insertion order. -/
def membersOf (g : ProblemsGraph) (v : Nat) : List Nat :=
  (List.range g.nodes.length).filter (fun x => label (finalLabels g) x == v)

/-- The compressed problems graph (spec section 3): list nodes, edges
carrying the dependency-specification strings (grouped lists are recovered
by keying the flat edges on their endpoint pair), and the group-level
conflict map. -/
structure CompressedProblemsGraph where
  nodes : List ListNode
  edges : List (Nat × Nat × String)
  conflicts : ConflictMap
deriving DecidableEq, Repr

/-- Modelled from the spec: `CompressedProblemsGraph::from_problems_graph`
(bound at legacy.cpp:601-605; spec section 4.2).  Merge-equivalent nodes are
folded into one list node absorbing their entities (deduplicated, insertion
order preserved), edges are rewritten over groups, and the conflict map is
rewritten over groups: groups are in conflict if any pair of their absorbed
members were in conflict pre-merge. -/
def from_problems_graph (g : ProblemsGraph) : CompressedProblemsGraph :=
  { nodes := (groupIds g).map (fun v =>
      { variant := (g.nodes.getD v Node.root).variant
        name := (g.nodes.getD v Node.root).name
        entities := dedupFirst ((membersOf g v).map (fun x => g.nodes.getD x Node.root)) })
    edges := dedupFirst (g.edges.map (fun e => (groupOf g e.1, groupOf g e.2.1, e.2.2)))
    conflicts :=
      ⟨dedupFirst (g.conflicts.pairs.map (fun c => (groupOf g c.1, groupOf g c.2)))⟩ }

/-- The compressed graph viewed again as a problems graph (one plain node
per group), the input to the merge-equivalence pass when it is re-applied to
the node signatures of an already-compressed graph. -/
def CompressedProblemsGraph.toProblemsGraph (cg : CompressedProblemsGraph) : ProblemsGraph :=
  { nodes := cg.nodes.map (fun ln => ⟨ln.variant, ln.name, "", "", ""⟩)
    edges := cg.edges
    conflicts := cg.conflicts }

/-- Well-formedness of a problems graph: edges and conflicts only mention
node identifiers that exist in the arena (spec section 3: identifiers are
assigned at insertion). -/
def WF (g : ProblemsGraph) : Prop :=
  (∀ e ∈ g.edges, e.1 < g.nodes.length ∧ e.2.1 < g.nodes.length) ∧
    ∀ c ∈ g.conflicts.pairs, c.1 < g.nodes.length ∧ c.2 < g.nodes.length

instance (g : ProblemsGraph) : Decidable (WF g) := by
  unfold WF; infer_instance

/-- Rule kinds of the rule-conflict records supplied by the constraint
solving collaborator (spec section 6). -/
inductive RuleKind where
  | pkg
  | pkg_not_installable
  | pkg_nothing_provides_dep
  | pkg_requires
  | pkg_self_conflict
  | pkg_conflicts
  | pkg_same_name
  | pkg_obsoletes
  | pkg_constrains
  | pkg_recommends
  | job_nothing_provides_dep
  | job_unknown_package
  | job_unsupported
deriving DecidableEq, Repr

/-- A rule-conflict record (spec section 6): rule kind, the resolved source
entity, the optional resolved target entity, the optional dependency
specification string, and the free-text description. -/
structure RuleConflictRecord where
  kind : RuleKind
  source : Node
  target : Option Node
  dep : Option String
  description : String
deriving DecidableEq, Repr

/-- Inserting a node keyed by its identity (spec section 4.1: re-encountering
the same key returns the existing node rather than duplicating it), returning
the graph and the node's identifier. -/
def addNode (g : ProblemsGraph) (nd : Node) : ProblemsGraph × Nat :=
  if nd ∈ g.nodes then (g, List.indexOf nd g.nodes)
  else ({ g with nodes := g.nodes ++ [nd] }, g.nodes.length)

/-- Modelled from the spec: processing of one rule-conflict record by the
`GraphBuilder` (spec section 4.1), whose implementation is not among the
bound sources.  Kinds whose target resolves to no package create an
`UnresolvedDependency` node and an edge from the implicated package (or
`Root`, node 0, for top-level requests); package-vs-package incompatibility
kinds add a conflict-map entry between the two package nodes (creating them
if absent) rather than an edge; `constrains` creates a `Constraint` node and
an edge from the requiring package; `requires` records the dependency edge
between the two packages; remaining kinds contribute only their free-text
description and leave the graph unchanged. -/
def applyRecord (g : ProblemsGraph) (r : RuleConflictRecord) : ProblemsGraph :=
  match r.kind with
  | RuleKind.pkg_nothing_provides_dep =>
      let p1 := addNode g r.source
      let depStr := r.dep.getD ""
      let p2 := addNode p1.1 ⟨NodeVariant.unresolvedDependency, depStr, "", "", ""⟩
      { p2.1 with edges := p2.1.edges ++ [(p1.2, p2.2, depStr)] }
  | RuleKind.job_nothing_provides_dep =>
      let depStr := r.dep.getD ""
      let p := addNode g ⟨NodeVariant.unresolvedDependency, depStr, "", "", ""⟩
      { p.1 with edges := p.1.edges ++ [(0, p.2, depStr)] }
  | RuleKind.job_unknown_package =>
      let depStr := r.dep.getD ""
      let p := addNode g ⟨NodeVariant.unresolvedDependency, depStr, "", "", ""⟩
      { p.1 with edges := p.1.edges ++ [(0, p.2, depStr)] }
  | RuleKind.pkg_conflicts =>
      let p1 := addNode g r.source
      let p2 := addNode p1.1 (r.target.getD r.source)
      { p2.1 with conflicts := p2.1.conflicts.add p1.2 p2.2 }
  | RuleKind.pkg_self_conflict =>
      let p1 := addNode g r.source
      let p2 := addNode p1.1 (r.target.getD r.source)
      { p2.1 with conflicts := p2.1.conflicts.add p1.2 p2.2 }
  | RuleKind.pkg_obsoletes =>
      let p1 := addNode g r.source
      let p2 := addNode p1.1 (r.target.getD r.source)
      { p2.1 with conflicts := p2.1.conflicts.add p1.2 p2.2 }
  | RuleKind.pkg_same_name =>
      let p1 := addNode g r.source
      let p2 := addNode p1.1 (r.target.getD r.source)
      { p2.1 with conflicts := p2.1.conflicts.add p1.2 p2.2 }
  | RuleKind.pkg_constrains =>
      let p1 := addNode g r.source
      let depStr := r.dep.getD ""
      let p2 := addNode p1.1 ⟨NodeVariant.constraint, depStr, "", "", ""⟩
      { p2.1 with edges := p2.1.edges ++ [(p1.2, p2.2, depStr)] }
  | RuleKind.pkg_requires =>
      match r.target with
      | some t =>
          let p1 := addNode g r.source
          let p2 := addNode p1.1 t
          { p2.1 with edges := p2.1.edges ++ [(p1.2, p2.2, r.dep.getD "")] }
      | none => g
  | _ => g

/-- Modelled from the spec: `GraphBuilder.build` (spec section 4.1), whose
implementation is not among the bound sources.  A `Root` node is created
once (identifier 0), then the records are processed in order. -/
def build (records : List RuleConflictRecord) : ProblemsGraph :=
  records.foldl applyRecord
    { nodes := [Node.root], edges := [], conflicts := ConflictMap.empty }

/-- The children of compressed node `u` reached via a distinct dependency
list, in first-insertion order. -/
def childGroupsOf (cg : CompressedProblemsGraph) (u : Nat) : List Nat :=
  dedupFirst ((cg.edges.filter (fun e => e.1 == u)).map (fun e => e.2.1))

/-- Indentation for the explanation tree. -/
def indentOf (depth : Nat) : String :=
  String.join (List.replicate depth "  ")

/-- Modelled from the spec: the renderer's visit of one compressed node
(spec section 4.3): emit the entity name and the truncated version summary
with the section 4.2 defaults, a conflict cross-reference line when the node
participates in the conflict map, then the children, each occurrence
indented under its parent.  The fuel bounds the depth-first traversal so
that the recursion is total; the upstream graph is acyclic. -/
def renderNode (cg : CompressedProblemsGraph) : Nat → Nat → Nat → List String
  | 0, _, _ => []
  | fuel + 1, u, depth =>
      let ln := cg.nodes.getD u ⟨NodeVariant.root, "", []⟩
      let line := indentOf depth ++ ln.name ++ " " ++ ln.versions_trunc "|" "..." 5 true
      let conflLines :=
        if cg.conflicts.in_conflict u then
          [indentOf depth ++ "conflicts with " ++
            String.intercalate " " ((cg.conflicts.conflicts_of u).map
              (fun v => (cg.nodes.getD v ⟨NodeVariant.root, "", []⟩).name))]
        else []
      line :: conflLines ++
        (childGroupsOf cg u).foldr
          (fun c acc => renderNode cg fuel c (depth + 1) ++ acc) []

/-- The compressed-graph index of the `Root` group. -/
def rootIndexOf (cg : CompressedProblemsGraph) : Nat :=
  cg.nodes.findIdx (fun ln => decide (ln.variant = NodeVariant.root))

/-- Modelled from the spec: the textual explanation tree (`tree_message`,
bound at legacy.cpp:616; spec section 4.3).  If `Root` has no outgoing
edges, a single line states that no conflicting information is available;
otherwise the children of `Root` are rendered depth first. -/
def tree_message (cg : CompressedProblemsGraph) : String :=
  let r := rootIndexOf cg
  if cg.edges.filter (fun e => e.1 == r) = [] then "no information available"
  else
    String.intercalate "\n"
      ((childGroupsOf cg r).foldr (fun c acc => renderNode cg cg.edges.length c 0 ++ acc) [])

/-- Default arguments attached to a python binding of a `*_trunc` method. -/
structure TruncArgs where
  sep : String
  etc : String
  threshold : Nat
  remove_duplicates : Bool
deriving DecidableEq, Repr

/-- Embedded from legacy.cpp:68-109: `bind_NamedList` registers, on the
class it is given, the three `*_trunc` methods, each with default arguments
`sep = "|"`, `etc = "..."`, `threshold = 5`, `remove_duplicates = true`.
The table records, for the named class, each registered method and its
default arguments. -/
def bind_NamedList (typeName : String) : String × List (String × TruncArgs) :=
  (typeName,
    [("versions_trunc", ⟨"|", "...", 5, true⟩),
     ("build_strings_trunc", ⟨"|", "...", 5, true⟩),
     ("versions_and_build_strings_trunc", ⟨"|", "...", 5, true⟩)])

/-- Embedded from legacy.cpp:590-595: `bind_NamedList` is applied to
`PackageListNode`, `UnresolvedDependencyListNode`, `ConstraintListNode` and
`DependencyList` (the edge type). -/
def namedListBindings : List (String × List (String × TruncArgs)) :=
  [bind_NamedList "PackageListNode",
   bind_NamedList "UnresolvedDependencyListNode",
   bind_NamedList "ConstraintListNode",
   bind_NamedList "DependencyList"]

/-- A small concrete problems graph (a root requiring one package) used to
evaluate the compression theorems on a concrete input. -/
def sampleGraph : ProblemsGraph :=
  { nodes := [Node.root, ⟨NodeVariant.package, "a", "1.0", "0", "ch"⟩]
    edges := [(0, 1, "a")]
    conflicts := ConflictMap.empty }

/-- The refinement rounds have reached their stable point at round `k`:
round `k + 1` induces the same partition as round `k`. -/
def stableAt (g : ProblemsGraph) (k : Nat) : Prop :=
  ∀ x y, x < g.nodes.length → y < g.nodes.length →
    (label (refineN g k) x = label (refineN g k) y ↔
      label (refineN g (k + 1)) x = label (refineN g (k + 1)) y)

/-- Number of distinct groups after `k` refinement rounds. -/
def countAt (g : ProblemsGraph) (k : Nat) : Nat :=
  ((Finset.range g.nodes.length).image (label (refineN g k))).card

/-- A node carrying label `v` under labelling `l` (used to compare group
counts across refinement rounds). -/
def pickNode (l : List Nat) (n v : Nat) : Nat :=
  ((List.range n).find? (fun x => label l x == v)).getD 0

theorem has_conflict_iff_mem (m : ConflictMap) (a b : Nat) :
    m.has_conflict a b = true ↔ (a, b) ∈ m.pairs := by
  simp [ConflictMap.has_conflict]

theorem add_keeps_irrefl (m : ConflictMap) (a b : Nat)
    (h : ∀ c, (c, c) ∉ m.pairs) : ∀ c, (c, c) ∉ (m.add a b).pairs := by
  intro c
  unfold ConflictMap.add
  split
  · exact h c
  · rename_i hne
    intro hmem
    rcases List.mem_cons.1 hmem with hc | hmem
    · rcases Prod.mk.injEq .. ▸ hc with ⟨h1, h2⟩
      exact hne (h1 ▸ h2 ▸ rfl)
    · rcases List.mem_cons.1 hmem with hc | hmem
      · rcases Prod.mk.injEq .. ▸ hc with ⟨h1, h2⟩
        exact hne (h1 ▸ h2 ▸ rfl)
      · exact h c hmem

theorem buildConflictMap_irrefl (ops : List (Nat × Nat)) :
    ∀ c, (c, c) ∉ (buildConflictMap ops).pairs := by
  have main : ∀ (l : List (Nat × Nat)) (m : ConflictMap),
      (∀ c, (c, c) ∉ m.pairs) →
      ∀ c, (c, c) ∉ (l.foldl (fun m p => m.add p.1 p.2) m).pairs := by
    intro l
    induction l with
    | nil => intro m h; exact h
    | cons p t ih => intro m h; exact ih _ (add_keeps_irrefl m p.1 p.2 h)
  exact main ops ConflictMap.empty (by intro c h; simp [ConflictMap.empty] at h)

/-- C1 (amended: the symmetry consequence of `add(a, b)` is asserted for
distinct identifiers `a ≠ b`): over every conflict map reachable by a
sequence of `add` operations, `has_conflict(a, a)` is false for every `a`,
and after `add(a, b)` with `a ≠ b` the query `has_conflict(b, a)` returns
true. -/
theorem conflictMap_symmetric_irreflexive (ops : List (Nat × Nat)) :
    (∀ a, (buildConflictMap ops).has_conflict a a = false) ∧
      ∀ a b, a ≠ b → ((buildConflictMap ops).add a b).has_conflict b a = true := by
  constructor
  · intro a
    have h := buildConflictMap_irrefl ops a
    simp [ConflictMap.has_conflict, h]
  · intro a b hab
    simp [ConflictMap.add, hab, ConflictMap.has_conflict]

/-- C1 counterexample: the claim quantifies over all identifiers `a`, `b`,
so it requires `has_conflict(0, 0) = true` after `add(0, 0)`; but after any
sequence of adds `has_conflict(0, 0)` is false (the claim is contradictory
at `a = b`, since it also requires `has_conflict(a, a)` to always be
false). -/
theorem conflictMap_self_add_counterexample :
    (ConflictMap.empty.add 0 0).has_conflict 0 0 = false := by decide

/-- C1 witness: the amended theorem applied at the add sequence `[(2, 3)]`
and the distinct pair `(0, 1)`. -/
theorem conflictMap_symmetric_irreflexive_witness :
    (buildConflictMap [(2, 3)]).has_conflict 0 0 = false ∧
      ((buildConflictMap [(2, 3)]).add 0 1).has_conflict 1 0 = true :=
  ⟨(conflictMap_symmetric_irreflexive [(2, 3)]).1 0,
    (conflictMap_symmetric_irreflexive [(2, 3)]).2 0 1 (by decide)⟩

/-- C10: the `__contains__` membership test of `ConflictMap` is the same
operation as `has_conflict`: both python methods are bound to the same
member function (legacy.cpp:554-555), so they agree on every conflict map
and every pair of node identifiers. -/
theorem mem_pair_eq_has_conflict :
    ∀ (m : ConflictMap) (a b : Nat), m.mem_pair a b = m.has_conflict a b := by
  intro m a b
  rfl

/-- C9: every `*_trunc` entry point on every list-node type
(`PackageListNode`, `UnresolvedDependencyListNode`, `ConstraintListNode`,
`DependencyList`) is registered with the default arguments `sep = "|"`,
`etc = "..."`, `threshold = 5`, `remove_duplicates = true`
(legacy.cpp:84-107 and 590-595). -/
theorem namedList_trunc_defaults :
    namedListBindings.map Prod.fst =
        ["PackageListNode", "UnresolvedDependencyListNode", "ConstraintListNode",
          "DependencyList"] ∧
      namedListBindings.all
          (fun t =>
            decide (t.2.map Prod.fst =
                ["versions_trunc", "build_strings_trunc",
                  "versions_and_build_strings_trunc"]) &&
              t.2.all (fun mth => decide (mth.2 = ⟨"|", "...", 5, true⟩))) =
        true := by
  decide

/-- C4: the truncated display on the version list
`["1.0","1.1","1.2","1.3","1.4","1.5","1.6"]` with `sep = "|"`,
`etc = "..."`, `threshold = 5`, `remove_duplicates = true` keeps the first
five items in order and appends the marker:
`"1.0|1.1|1.2|1.3|1.4|..."`. -/
theorem versions_trunc_seven :
    ListNode.versions_trunc
        ⟨NodeVariant.package, "p",
          [⟨NodeVariant.package, "p", "1.0", "0", "c"⟩,
            ⟨NodeVariant.package, "p", "1.1", "0", "c"⟩,
            ⟨NodeVariant.package, "p", "1.2", "0", "c"⟩,
            ⟨NodeVariant.package, "p", "1.3", "0", "c"⟩,
            ⟨NodeVariant.package, "p", "1.4", "0", "c"⟩,
            ⟨NodeVariant.package, "p", "1.5", "0", "c"⟩,
            ⟨NodeVariant.package, "p", "1.6", "0", "c"⟩]⟩
        "|" "..." 5 true = "1.0|1.1|1.2|1.3|1.4|..." := by
  decide

/-- C5: the truncated display with `remove_duplicates = true` on the
version list `["1.0","1.0","1.1"]` and the default arguments first
deduplicates to `["1.0","1.1"]` and returns `"1.0|1.1"` with no ellipsis
marker, the deduplicated count being below the threshold. -/
theorem versions_trunc_duplicates :
    ListNode.versions_trunc
        ⟨NodeVariant.package, "p",
          [⟨NodeVariant.package, "p", "1.0", "0", "c"⟩,
            ⟨NodeVariant.package, "p", "1.0", "1", "c"⟩,
            ⟨NodeVariant.package, "p", "1.1", "0", "c"⟩]⟩
        "|" "..." 5 true = "1.0|1.1" := by
  decide

/-- C6: building from the empty rule-conflict sequence is not an error: the
result is the graph with only the `Root` node, no edges and no conflicts,
and rendering its compression produces the fixed "no information available"
message. -/
theorem build_empty_graph :
    build [] = { nodes := [Node.root], edges := [], conflicts := ConflictMap.empty } ∧
      tree_message (from_problems_graph (build [])) = "no information available" := by
  exact ⟨rfl, by decide⟩

theorem foldl_dedup_mem {α : Type} [DecidableEq α] :
    ∀ (l acc : List α) (x : α),
      (x ∈ l.foldl (fun acc a => if a ∈ acc then acc else acc ++ [a]) acc) ↔
        x ∈ acc ∨ x ∈ l := by
  intro l
  induction l with
  | nil => intro acc x; simp
  | cons a t ih =>
      intro acc x
      simp only [List.foldl_cons]
      by_cases ha : a ∈ acc
      · rw [if_pos ha, ih]
        constructor
        · rintro (h | h)
          · exact Or.inl h
          · exact Or.inr (List.mem_cons_of_mem a h)
        · rintro (h | h)
          · exact Or.inl h
          · rcases List.mem_cons.1 h with rfl | h
            · exact Or.inl ha
            · exact Or.inr h
      · rw [if_neg ha, ih]
        simp only [List.mem_append, List.mem_singleton, List.mem_cons]
        tauto

theorem mem_dedupFirst {α : Type} [DecidableEq α] {l : List α} {x : α} :
    x ∈ dedupFirst l ↔ x ∈ l := by
  unfold dedupFirst
  rw [foldl_dedup_mem]
  simp

theorem foldl_dedup_nodup {α : Type} [DecidableEq α] :
    ∀ (l acc : List α), acc.Nodup →
      (l.foldl (fun acc a => if a ∈ acc then acc else acc ++ [a]) acc).Nodup := by
  intro l
  induction l with
  | nil => intro acc h; exact h
  | cons a t ih =>
      intro acc h
      simp only [List.foldl_cons]
      by_cases ha : a ∈ acc
      · rw [if_pos ha]; exact ih acc h
      · rw [if_neg ha]
        refine ih _ ?_
        simp [List.nodup_append, h, ha]

theorem nodup_dedupFirst {α : Type} [DecidableEq α] (l : List α) :
    (dedupFirst l).Nodup :=
  foldl_dedup_nodup l [] List.nodup_nil

theorem label_map_range {n : Nat} (f : Nat → Nat) {x : Nat} (hx : x < n) :
    label ((List.range n).map f) x = f x := by
  simp [label, List.getD_eq_getElem?_getD, List.getElem?_map, List.getElem?_range hx]

theorem mem_parentsOf {g : ProblemsGraph} {x p : Nat} :
    p ∈ parentsOf g x ↔ ∃ s, (p, x, s) ∈ g.edges := by
  unfold parentsOf
  constructor
  · intro h
    rcases List.mem_map.1 h with ⟨e, he, rfl⟩
    rcases List.mem_filter.1 he with ⟨hmem, hbeq⟩
    have hx : e.2.1 = x := by simpa using hbeq
    exact ⟨e.2.2, by rw [← hx]; exact hmem⟩
  · rintro ⟨s, hs⟩
    exact List.mem_map.2 ⟨(p, x, s), List.mem_filter.2 ⟨hs, by simp⟩, rfl⟩

theorem mem_conflictPartnersOf {g : ProblemsGraph} {x c : Nat} :
    c ∈ conflictPartnersOf g x ↔
      (x, c) ∈ g.conflicts.pairs ∨ (c, x) ∈ g.conflicts.pairs := by
  unfold conflictPartnersOf
  rw [List.mem_append]
  constructor
  · rintro (h | h)
    · rcases List.mem_map.1 h with ⟨p, hp, rfl⟩
      rcases List.mem_filter.1 hp with ⟨hm, hb⟩
      have hx : p.1 = x := by simpa using hb
      left
      rw [← hx]
      exact hm
    · rcases List.mem_map.1 h with ⟨p, hp, rfl⟩
      rcases List.mem_filter.1 hp with ⟨hm, hb⟩
      have hx : p.2 = x := by simpa using hb
      right
      rw [← hx]
      exact hm
  · rintro (h | h)
    · left
      exact List.mem_map.2 ⟨(x, c), List.mem_filter.2 ⟨h, by simp⟩, rfl⟩
    · right
      exact List.mem_map.2 ⟨(c, x), List.mem_filter.2 ⟨h, by simp⟩, rfl⟩

theorem mem_toFinset_map {f : Nat → Nat} {xs : List Nat} {a : Nat} :
    a ∈ (xs.map f).toFinset ↔ ∃ p ∈ xs, f p = a := by
  simp

theorem toFinset_map_eq_iff {f : Nat → Nat} {xs ys : List Nat} :
    (xs.map f).toFinset = (ys.map f).toFinset ↔
      ((∀ p ∈ xs, ∃ q ∈ ys, f q = f p) ∧ ∀ q ∈ ys, ∃ p ∈ xs, f p = f q) := by
  constructor
  · intro h
    constructor
    · intro p hp
      have hmem : f p ∈ (ys.map f).toFinset := by
        rw [← h]
        exact mem_toFinset_map.2 ⟨p, hp, rfl⟩
      exact mem_toFinset_map.1 hmem
    · intro q hq
      have hmem : f q ∈ (xs.map f).toFinset := by
        rw [h]
        exact mem_toFinset_map.2 ⟨q, hq, rfl⟩
      exact mem_toFinset_map.1 hmem
  · rintro ⟨h1, h2⟩
    ext a
    rw [mem_toFinset_map, mem_toFinset_map]
    constructor
    · rintro ⟨p, hp, rfl⟩
      exact h1 p hp
    · rintro ⟨q, hq, rfl⟩
      rcases h2 q hq with ⟨p, hp, hpl⟩
      exact ⟨p, hp, hpl⟩

theorem mem_parentSig {g : ProblemsGraph} {l : List Nat} {x a : Nat} :
    a ∈ parentSig g l x ↔ ∃ p ∈ parentsOf g x, label l p = a :=
  mem_toFinset_map

theorem mem_conflictSig {g : ProblemsGraph} {l : List Nat} {x a : Nat} :
    a ∈ conflictSig g l x ↔ ∃ p ∈ conflictPartnersOf g x, label l p = a :=
  mem_toFinset_map

theorem firstPos_lt_length {α : Type} [DecidableEq α] {a : α} {l : List α}
    (h : a ∈ l) : firstPos a l < l.length := by
  induction l with
  | nil => cases h
  | cons b t ih =>
      by_cases hab : a = b
      · simp [firstPos, hab]
      · have hat : a ∈ t := by
          rcases List.mem_cons.1 h with rfl | hmem
          · exact absurd rfl hab
          · exact hmem
        simp only [firstPos, if_neg hab, List.length_cons]
        exact Nat.succ_lt_succ (ih hat)

theorem getD_firstPos {α : Type} [DecidableEq α] {a : α} {l : List α}
    (h : a ∈ l) (d : α) : l.getD (firstPos a l) d = a := by
  induction l with
  | nil => cases h
  | cons b t ih =>
      by_cases hab : a = b
      · simp [firstPos, hab]
      · have hat : a ∈ t := by
          rcases List.mem_cons.1 h with rfl | hmem
          · exact absurd rfl hab
          · exact hmem
        simp only [firstPos, if_neg hab, List.getD_cons_succ]
        exact ih hat

theorem firstPos_inj {α : Type} [DecidableEq α] {l : List α} {x y : α}
    (hx : x ∈ l) (hy : y ∈ l) : firstPos x l = firstPos y l ↔ x = y := by
  constructor
  · intro h
    calc x = l.getD (firstPos x l) x := (getD_firstPos hx x).symm
      _ = l.getD (firstPos y l) x := by rw [h]
      _ = y := getD_firstPos hy x
  · rintro rfl
    rfl

theorem firstPos_getD_nodup {α : Type} [DecidableEq α] {l : List α}
    (hnd : l.Nodup) {U : Nat} (hU : U < l.length) (d : α) :
    firstPos (l.getD U d) l = U := by
  have hmem : l.getD U d ∈ l := by
    rw [List.getD_eq_getElem?_getD, List.getElem?_eq_getElem hU]
    simp
  have hlt := firstPos_lt_length hmem
  have h1 : l.getD (firstPos (l.getD U d) l) d = l.getD U d := getD_firstPos hmem d
  set i := firstPos (l.getD U d) l with hi
  rw [List.getD_eq_getElem?_getD, List.getElem?_eq_getElem hlt] at h1
  rw [List.getD_eq_getElem?_getD, List.getElem?_eq_getElem hU] at h1
  exact hnd.getElem_inj_iff.1 (by simpa using h1)

theorem label_refineStep {g : ProblemsGraph} {l : List Nat} {x : Nat}
    (hx : x < g.nodes.length) :
    label (refineStep g l) x =
      firstPos (sigKey g l x) ((List.range g.nodes.length).map (sigKey g l)) := by
  unfold refineStep
  exact label_map_range _ hx

theorem sigKey_mem_keys {g : ProblemsGraph} {l : List Nat} {x : Nat}
    (hx : x < g.nodes.length) :
    sigKey g l x ∈ (List.range g.nodes.length).map (sigKey g l) :=
  List.mem_map.2 ⟨x, List.mem_range.2 hx, rfl⟩

theorem refineStep_eqv_iff {g : ProblemsGraph} {l : List Nat} {x y : Nat}
    (hx : x < g.nodes.length) (hy : y < g.nodes.length) :
    label (refineStep g l) x = label (refineStep g l) y ↔
      sigKey g l x = sigKey g l y := by
  rw [label_refineStep hx, label_refineStep hy]
  exact firstPos_inj (sigKey_mem_keys hx) (sigKey_mem_keys hy)

theorem label_initLabels {g : ProblemsGraph} {x : Nat} (hx : x < g.nodes.length) :
    label (initLabels g) x =
      firstPos (vnKey g x) ((List.range g.nodes.length).map (vnKey g)) := by
  unfold initLabels
  exact label_map_range _ hx

theorem vnKey_mem_keys {g : ProblemsGraph} {x : Nat} (hx : x < g.nodes.length) :
    vnKey g x ∈ (List.range g.nodes.length).map (vnKey g) :=
  List.mem_map.2 ⟨x, List.mem_range.2 hx, rfl⟩

theorem initLabels_eqv_iff {g : ProblemsGraph} {x y : Nat}
    (hx : x < g.nodes.length) (hy : y < g.nodes.length) :
    label (initLabels g) x = label (initLabels g) y ↔ vnKey g x = vnKey g y := by
  rw [label_initLabels hx, label_initLabels hy]
  exact firstPos_inj (vnKey_mem_keys hx) (vnKey_mem_keys hy)

theorem refineStep_refines {g : ProblemsGraph} {l : List Nat} {x y : Nat}
    (hx : x < g.nodes.length) (hy : y < g.nodes.length)
    (h : label (refineStep g l) x = label (refineStep g l) y) :
    label l x = label l y :=
  congrArg (fun t => t.1) ((refineStep_eqv_iff hx hy).1 h)

theorem refineN_vnKey {g : ProblemsGraph} {x y : Nat}
    (hx : x < g.nodes.length) (hy : y < g.nodes.length) :
    ∀ k, label (refineN g k) x = label (refineN g k) y → vnKey g x = vnKey g y := by
  intro k
  induction k with
  | zero => intro h; exact (initLabels_eqv_iff hx hy).1 h
  | succ k ih =>
      intro h
      exact ih (refineStep_refines hx hy h)

theorem parentSig_eq_iff {g : ProblemsGraph} {l : List Nat} {x y : Nat} :
    parentSig g l x = parentSig g l y ↔
      ((∀ p ∈ parentsOf g x, ∃ q ∈ parentsOf g y, label l q = label l p) ∧
        ∀ q ∈ parentsOf g y, ∃ p ∈ parentsOf g x, label l p = label l q) :=
  toFinset_map_eq_iff

theorem conflictSig_eq_iff {g : ProblemsGraph} {l : List Nat} {x y : Nat} :
    conflictSig g l x = conflictSig g l y ↔
      ((∀ p ∈ conflictPartnersOf g x, ∃ q ∈ conflictPartnersOf g y,
          label l q = label l p) ∧
        ∀ q ∈ conflictPartnersOf g y, ∃ p ∈ conflictPartnersOf g x,
          label l p = label l q) :=
  toFinset_map_eq_iff

theorem parentsOf_lt {g : ProblemsGraph} (hwf : WF g) {x p : Nat}
    (h : p ∈ parentsOf g x) : p < g.nodes.length := by
  rcases mem_parentsOf.1 h with ⟨s, hs⟩
  exact (hwf.1 _ hs).1

theorem conflictPartnersOf_lt {g : ProblemsGraph} (hwf : WF g) {x c : Nat}
    (h : c ∈ conflictPartnersOf g x) : c < g.nodes.length := by
  rcases mem_conflictPartnersOf.1 h with hm | hm
  · exact (hwf.2 _ hm).2
  · exact (hwf.2 _ hm).1

theorem sigKey_eq_parts {g : ProblemsGraph} {l : List Nat} {x y : Nat} :
    sigKey g l x = sigKey g l y ↔
      (label l x = label l y ∧ parentSig g l x = parentSig g l y ∧
        conflictSig g l x = conflictSig g l y) := by
  unfold sigKey
  rw [Prod.ext_iff, Prod.ext_iff]

theorem sigKey_transfer {g : ProblemsGraph} (hwf : WF g) {l1 l2 : List Nat}
    (h : ∀ x y, x < g.nodes.length → y < g.nodes.length →
      label l1 x = label l1 y → label l2 x = label l2 y) :
    ∀ x y, x < g.nodes.length → y < g.nodes.length →
      sigKey g l1 x = sigKey g l1 y → sigKey g l2 x = sigKey g l2 y := by
  intro x y hx hy hkey
  rw [sigKey_eq_parts] at hkey ⊢
  obtain ⟨hl, hp, hc⟩ := hkey
  refine ⟨h x y hx hy hl, ?_, ?_⟩
  · rw [parentSig_eq_iff] at hp ⊢
    obtain ⟨h1, h2⟩ := hp
    constructor
    · intro p hp'
      obtain ⟨q, hq, hlab⟩ := h1 p hp'
      exact ⟨q, hq, h q p (parentsOf_lt hwf hq) (parentsOf_lt hwf hp') hlab⟩
    · intro q hq'
      obtain ⟨p, hp', hlab⟩ := h2 q hq'
      exact ⟨p, hp', h p q (parentsOf_lt hwf hp') (parentsOf_lt hwf hq') hlab⟩
  · rw [conflictSig_eq_iff] at hc ⊢
    obtain ⟨h1, h2⟩ := hc
    constructor
    · intro p hp'
      obtain ⟨q, hq, hlab⟩ := h1 p hp'
      exact ⟨q, hq,
        h q p (conflictPartnersOf_lt hwf hq) (conflictPartnersOf_lt hwf hp') hlab⟩
    · intro q hq'
      obtain ⟨p, hp', hlab⟩ := h2 q hq'
      exact ⟨p, hp',
        h p q (conflictPartnersOf_lt hwf hp') (conflictPartnersOf_lt hwf hq') hlab⟩

theorem stable_succ {g : ProblemsGraph} (hwf : WF g) {k : Nat}
    (hs : stableAt g k) : stableAt g (k + 1) := by
  intro x y hx hy
  have e1 : label (refineN g (k + 1)) x = label (refineN g (k + 1)) y ↔
      sigKey g (refineN g k) x = sigKey g (refineN g k) y :=
    refineStep_eqv_iff hx hy
  have e2 : label (refineN g (k + 2)) x = label (refineN g (k + 2)) y ↔
      sigKey g (refineN g (k + 1)) x = sigKey g (refineN g (k + 1)) y :=
    refineStep_eqv_iff hx hy
  rw [e1, e2]
  constructor
  · exact sigKey_transfer hwf
      (fun a b ha hb hab => (hs a b ha hb).1 hab) x y hx hy
  · exact sigKey_transfer hwf
      (fun a b ha hb hab => (hs a b ha hb).2 hab) x y hx hy

theorem stable_up {g : ProblemsGraph} (hwf : WF g) {k : Nat}
    (hs : stableAt g k) : ∀ j, stableAt g (k + j) := by
  intro j
  induction j with
  | zero => exact hs
  | succ j ih => exact stable_succ hwf ih

theorem unstable_below {g : ProblemsGraph} (hwf : WF g) {K k : Nat}
    (h : ¬ stableAt g K) (hk : k ≤ K) : ¬ stableAt g k := by
  intro hsk
  obtain ⟨j, rfl⟩ : ∃ j, K = k + j := ⟨K - k, by omega⟩
  exact h (stable_up hwf hsk j)

theorem pickNode_spec {l : List Nat} {n v : Nat}
    (h : ∃ x, x < n ∧ label l x = v) :
    pickNode l n v < n ∧ label l (pickNode l n v) = v := by
  unfold pickNode
  cases hf : (List.range n).find? (fun x => label l x == v) with
  | none =>
      exfalso
      obtain ⟨x, hx, hv⟩ := h
      have hnone := List.find?_eq_none.1 hf x (List.mem_range.2 hx)
      simp [hv] at hnone
  | some a =>
      have ha := List.find?_some hf
      have hm := List.mem_of_find?_eq_some hf
      exact ⟨List.mem_range.1 hm, by simpa using ha⟩

theorem refineN_succ_refines {g : ProblemsGraph} {k x y : Nat}
    (hx : x < g.nodes.length) (hy : y < g.nodes.length)
    (h : label (refineN g (k + 1)) x = label (refineN g (k + 1)) y) :
    label (refineN g k) x = label (refineN g k) y :=
  refineStep_refines hx hy h

theorem countAt_lt_of_unstable {g : ProblemsGraph} {k : Nat}
    (hunst : ¬ stableAt g k) : countAt g k < countAt g (k + 1) := by
  have hpair : ∃ x y, x < g.nodes.length ∧ y < g.nodes.length ∧
      label (refineN g k) x = label (refineN g k) y ∧
      ¬ label (refineN g (k + 1)) x = label (refineN g (k + 1)) y := by
    by_contra hall
    push_neg at hall
    apply hunst
    intro x y hx hy
    constructor
    · intro h1
      exact hall x y hx hy h1
    · exact refineN_succ_refines hx hy
  obtain ⟨x, y, hx, hy, hk1, hk2⟩ := hpair
  have hAeq : (Finset.range g.nodes.length).image (label (refineN g k)) =
      ((Finset.range g.nodes.length).image (label (refineN g (k + 1)))).image
        (fun v => label (refineN g k) (pickNode (refineN g (k + 1)) g.nodes.length v)) := by
    ext a
    simp only [Finset.mem_image, Finset.mem_range]
    constructor
    · rintro ⟨z, hz, rfl⟩
      refine ⟨label (refineN g (k + 1)) z, ⟨z, hz, rfl⟩, ?_⟩
      obtain ⟨hplt, hpv⟩ := pickNode_spec ⟨z, hz, rfl⟩
      exact refineN_succ_refines hplt hz hpv
    · rintro ⟨v, ⟨z, hz, rfl⟩, rfl⟩
      obtain ⟨hplt, hpv⟩ := pickNode_spec ⟨z, hz, rfl⟩
      exact ⟨_, hplt, rfl⟩
  have hle : countAt g k ≤ countAt g (k + 1) := by
    unfold countAt
    rw [hAeq]
    exact Finset.card_image_le
  rcases Nat.lt_or_ge (countAt g k) (countAt g (k + 1)) with hlt | hge
  · exact hlt
  · exfalso
    have heq : countAt g (k + 1) = countAt g k := le_antisymm hge hle
    have hinj := Finset.injOn_of_card_image_eq
      (s := (Finset.range g.nodes.length).image (label (refineN g (k + 1))))
      (f := fun v => label (refineN g k) (pickNode (refineN g (k + 1)) g.nodes.length v))
      (by rw [← hAeq]; exact heq.symm)
    have hu : label (refineN g (k + 1)) x ∈
        (Finset.range g.nodes.length).image (label (refineN g (k + 1))) :=
      Finset.mem_image.2 ⟨x, Finset.mem_range.2 hx, rfl⟩
    have hw : label (refineN g (k + 1)) y ∈
        (Finset.range g.nodes.length).image (label (refineN g (k + 1))) :=
      Finset.mem_image.2 ⟨y, Finset.mem_range.2 hy, rfl⟩
    have h1 : label (refineN g k)
        (pickNode (refineN g (k + 1)) g.nodes.length (label (refineN g (k + 1)) x)) =
        label (refineN g k) x := by
      obtain ⟨hplt, hpv⟩ := pickNode_spec ⟨x, hx, rfl⟩
      exact refineN_succ_refines hplt hx hpv
    have h2 : label (refineN g k)
        (pickNode (refineN g (k + 1)) g.nodes.length (label (refineN g (k + 1)) y)) =
        label (refineN g k) y := by
      obtain ⟨hplt, hpv⟩ := pickNode_spec ⟨y, hy, rfl⟩
      exact refineN_succ_refines hplt hy hpv
    have hval : label (refineN g (k + 1)) x = label (refineN g (k + 1)) y :=
      hinj (Finset.mem_coe.2 hu) (Finset.mem_coe.2 hw)
        (by simp only []; rw [h1, h2, hk1])
    exact hk2 hval

theorem countAt_le (g : ProblemsGraph) (k : Nat) :
    countAt g k ≤ g.nodes.length := by
  unfold countAt
  calc ((Finset.range g.nodes.length).image (label (refineN g k))).card
      ≤ (Finset.range g.nodes.length).card := Finset.card_image_le
    _ = g.nodes.length := Finset.card_range _

theorem countAt_pos {g : ProblemsGraph} (hn : 0 < g.nodes.length) (k : Nat) :
    0 < countAt g k :=
  Finset.card_pos.2
    ⟨label (refineN g k) 0, Finset.mem_image.2 ⟨0, Finset.mem_range.2 hn, rfl⟩⟩

theorem final_stable {g : ProblemsGraph} (hwf : WF g) :
    stableAt g g.nodes.length := by
  by_contra hunst
  have hn : 0 < g.nodes.length := by
    by_contra h0
    apply hunst
    intro x y hx _
    exact absurd hx (by omega)
  have hchain : ∀ k, k ≤ g.nodes.length → countAt g 0 + k ≤ countAt g k := by
    intro k
    induction k with
    | zero => intro _; omega
    | succ k ih =>
        intro hk
        have hk' : k ≤ g.nodes.length := by omega
        have hunk : ¬ stableAt g k := unstable_below hwf hunst hk'
        have hstep := countAt_lt_of_unstable hunk
        have hih := ih hk'
        omega
  have h1 := hchain g.nodes.length le_rfl
  have h2 := countAt_le g g.nodes.length
  have h3 := countAt_pos hn 0
  omega

theorem finalLabels_sigKey {g : ProblemsGraph} (hwf : WF g) {x y : Nat}
    (hx : x < g.nodes.length) (hy : y < g.nodes.length)
    (h : label (finalLabels g) x = label (finalLabels g) y) :
    sigKey g (finalLabels g) x = sigKey g (finalLabels g) y := by
  have hs := (final_stable hwf x y hx hy).1 h
  exact (refineStep_eqv_iff hx hy).1 hs

theorem getD_map_range {α : Type} (f : Nat → α) {n i : Nat} (hi : i < n) (d : α) :
    ((List.range n).map f).getD i d = f i := by
  simp [List.getD_eq_getElem?_getD, List.getElem?_map, List.getElem?_range hi]

theorem getD_mem_of_lt {α : Type} {l : List α} {U : Nat} (hU : U < l.length) (d : α) :
    l.getD U d ∈ l := by
  rw [List.getD_eq_getElem?_getD, List.getElem?_eq_getElem hU]
  simp

theorem getD_map_of_lt {α β : Type} (f : α → β) {l : List α} {i : Nat}
    (hi : i < l.length) (d : β) (d' : α) :
    (l.map f).getD i d = f (l.getD i d') := by
  rw [List.getD_eq_getElem?_getD, List.getElem?_map, List.getElem?_eq_getElem hi]
  rw [List.getD_eq_getElem?_getD, List.getElem?_eq_getElem hi]
  simp

theorem refineStep_label_lt {g : ProblemsGraph} {l : List Nat} {x : Nat}
    (hx : x < g.nodes.length) :
    label (refineStep g l) x < g.nodes.length ∧
      sigKey g l (label (refineStep g l) x) = sigKey g l x := by
  have hmem := sigKey_mem_keys (l := l) hx
  have hlt0 := firstPos_lt_length hmem
  have hlen : ((List.range g.nodes.length).map (sigKey g l)).length = g.nodes.length := by
    simp
  rw [hlen] at hlt0
  have hlab := label_refineStep (l := l) hx
  have hlt : label (refineStep g l) x < g.nodes.length := by
    rw [hlab]
    exact hlt0
  refine ⟨hlt, ?_⟩
  have h1 := getD_firstPos hmem (sigKey g l x)
  rw [getD_map_range (sigKey g l) hlt0 (sigKey g l x)] at h1
  rw [hlab]
  exact h1

theorem refineStep_label_idem {g : ProblemsGraph} {l : List Nat} {x : Nat}
    (hx : x < g.nodes.length) :
    label (refineStep g l) (label (refineStep g l) x) = label (refineStep g l) x := by
  obtain ⟨hlt, hsig⟩ := refineStep_label_lt (l := l) hx
  rw [label_refineStep hlt, hsig, label_refineStep hx]

theorem finalLabels_label_lt {g : ProblemsGraph} {x : Nat}
    (hx : x < g.nodes.length) :
    label (finalLabels g) x < g.nodes.length ∧
      label (finalLabels g) (label (finalLabels g) x) = label (finalLabels g) x := by
  obtain ⟨m, hm⟩ : ∃ m, g.nodes.length = m + 1 := ⟨g.nodes.length - 1, by omega⟩
  have heq : finalLabels g = refineStep g (refineN g m) := by
    unfold finalLabels
    rw [hm]
    rfl
  rw [heq]
  exact ⟨(refineStep_label_lt hx).1, refineStep_label_idem hx⟩

theorem vnKey_final_label {g : ProblemsGraph} {x : Nat}
    (hx : x < g.nodes.length) :
    vnKey g (label (finalLabels g) x) = vnKey g x := by
  obtain ⟨hlt, hidem⟩ := finalLabels_label_lt hx
  exact refineN_vnKey hlt hx g.nodes.length hidem

theorem label_mem_groupIds {g : ProblemsGraph} {x : Nat}
    (hx : x < g.nodes.length) :
    label (finalLabels g) x ∈ groupIds g :=
  mem_dedupFirst.2 (List.mem_map.2 ⟨x, List.mem_range.2 hx, rfl⟩)

theorem groupOf_lt {g : ProblemsGraph} {x : Nat} (hx : x < g.nodes.length) :
    groupOf g x < (groupIds g).length :=
  firstPos_lt_length (label_mem_groupIds hx)

theorem groupOf_eq_iff {g : ProblemsGraph} {x y : Nat}
    (hx : x < g.nodes.length) (hy : y < g.nodes.length) :
    groupOf g x = groupOf g y ↔
      label (finalLabels g) x = label (finalLabels g) y :=
  firstPos_inj (label_mem_groupIds hx) (label_mem_groupIds hy)

theorem groupIds_getD_groupOf {g : ProblemsGraph} {x : Nat}
    (hx : x < g.nodes.length) :
    (groupIds g).getD (groupOf g x) 0 = label (finalLabels g) x :=
  getD_firstPos (label_mem_groupIds hx) 0

theorem groupOf_surj {g : ProblemsGraph} {U : Nat} (hU : U < (groupIds g).length) :
    ∃ x, x < g.nodes.length ∧ groupOf g x = U := by
  have hnodup := nodup_dedupFirst
    ((List.range g.nodes.length).map (label (finalLabels g)))
  have hmem : (groupIds g).getD U 0 ∈ groupIds g := getD_mem_of_lt hU 0
  have hmem2 := mem_dedupFirst.1 hmem
  rcases List.mem_map.1 hmem2 with ⟨x, hxr, hlab⟩
  refine ⟨x, List.mem_range.1 hxr, ?_⟩
  unfold groupOf
  rw [hlab]
  exact firstPos_getD_nodup hnodup hU 0

theorem from_pg_nodes_length (g : ProblemsGraph) :
    (from_problems_graph g).nodes.length = (groupIds g).length := by
  simp [from_problems_graph]

theorem toPG_nodes_length (cg : CompressedProblemsGraph) :
    cg.toProblemsGraph.nodes.length = cg.nodes.length := by
  simp [CompressedProblemsGraph.toProblemsGraph]

theorem toPG_edges (cg : CompressedProblemsGraph) :
    cg.toProblemsGraph.edges = cg.edges := rfl

theorem toPG_conflicts (cg : CompressedProblemsGraph) :
    cg.toProblemsGraph.conflicts = cg.conflicts := rfl

theorem from_pg_edge_up {g : ProblemsGraph} {u v : Nat} {s : String}
    (h : (u, v, s) ∈ g.edges) :
    (groupOf g u, groupOf g v, s) ∈ (from_problems_graph g).edges :=
  mem_dedupFirst.2 (List.mem_map.2 ⟨(u, v, s), h, rfl⟩)

theorem from_pg_edge_down {g : ProblemsGraph} {e : Nat × Nat × String}
    (h : e ∈ (from_problems_graph g).edges) :
    ∃ u v s, (u, v, s) ∈ g.edges ∧ e = (groupOf g u, groupOf g v, s) := by
  have hmem := mem_dedupFirst.1 h
  rcases List.mem_map.1 hmem with ⟨e2, he2, heq⟩
  exact ⟨e2.1, e2.2.1, e2.2.2, he2, heq.symm⟩

theorem from_pg_conflict_up {g : ProblemsGraph} {a b : Nat}
    (h : (a, b) ∈ g.conflicts.pairs) :
    (groupOf g a, groupOf g b) ∈ (from_problems_graph g).conflicts.pairs :=
  mem_dedupFirst.2 (List.mem_map.2 ⟨(a, b), h, rfl⟩)

theorem from_pg_conflict_down {g : ProblemsGraph} {c : Nat × Nat}
    (h : c ∈ (from_problems_graph g).conflicts.pairs) :
    ∃ a b, (a, b) ∈ g.conflicts.pairs ∧ c = (groupOf g a, groupOf g b) := by
  have hmem := mem_dedupFirst.1 h
  rcases List.mem_map.1 hmem with ⟨c2, hc2, heq⟩
  exact ⟨c2.1, c2.2, hc2, heq.symm⟩

theorem from_pg_WF {g : ProblemsGraph} (hwf : WF g) :
    WF (from_problems_graph g).toProblemsGraph := by
  constructor
  · intro e he
    rw [toPG_edges] at he
    rcases from_pg_edge_down he with ⟨u, v, s, hm, rfl⟩
    rw [toPG_nodes_length, from_pg_nodes_length]
    exact ⟨groupOf_lt (hwf.1 _ hm).1, groupOf_lt (hwf.1 _ hm).2⟩
  · intro c hc
    rw [toPG_conflicts] at hc
    rcases from_pg_conflict_down hc with ⟨a, b, hm, rfl⟩
    rw [toPG_nodes_length, from_pg_nodes_length]
    exact ⟨groupOf_lt (hwf.2 _ hm).1, groupOf_lt (hwf.2 _ hm).2⟩

theorem from_pg_node_vnKey {g : ProblemsGraph} {x : Nat}
    (hx : x < g.nodes.length) :
    vnKey (from_problems_graph g).toProblemsGraph (groupOf g x) = vnKey g x := by
  have hglt : groupOf g x < (groupIds g).length := groupOf_lt hx
  have hglt2 : groupOf g x < (from_problems_graph g).nodes.length := by
    rw [from_pg_nodes_length]
    exact hglt
  have e1 : (from_problems_graph g).toProblemsGraph.nodes.getD (groupOf g x) Node.root =
      ⟨((from_problems_graph g).nodes.getD (groupOf g x)
          ⟨NodeVariant.root, "", []⟩).variant,
        ((from_problems_graph g).nodes.getD (groupOf g x)
          ⟨NodeVariant.root, "", []⟩).name, "", "", ""⟩ :=
    getD_map_of_lt (fun (ln : ListNode) => (⟨ln.variant, ln.name, "", "", ""⟩ : Node))
      hglt2 Node.root ⟨NodeVariant.root, "", []⟩
  have e2 : (from_problems_graph g).nodes.getD (groupOf g x) ⟨NodeVariant.root, "", []⟩ =
      { variant := (g.nodes.getD ((groupIds g).getD (groupOf g x) 0) Node.root).variant
        name := (g.nodes.getD ((groupIds g).getD (groupOf g x) 0) Node.root).name
        entities := dedupFirst ((membersOf g ((groupIds g).getD (groupOf g x) 0)).map
          (fun z => g.nodes.getD z Node.root)) } :=
    getD_map_of_lt
      (fun v =>
        ({ variant := (g.nodes.getD v Node.root).variant
           name := (g.nodes.getD v Node.root).name
           entities := dedupFirst ((membersOf g v).map
             (fun z => g.nodes.getD z Node.root)) } : ListNode))
      hglt ⟨NodeVariant.root, "", []⟩ 0
  unfold vnKey
  rw [e1, e2, groupIds_getD_groupOf hx]
  have hv := vnKey_final_label hx
  unfold vnKey at hv
  simpa using hv

theorem groupOf_lt_cg {g : ProblemsGraph} {x : Nat} (hx : x < g.nodes.length) :
    groupOf g x < (from_problems_graph g).toProblemsGraph.nodes.length := by
  rw [toPG_nodes_length, from_pg_nodes_length]
  exact groupOf_lt hx

theorem parent_cover {g : ProblemsGraph} (hwf : WF g) {x y p : Nat}
    (hx : x < g.nodes.length) (hy : y < g.nodes.length)
    (hE : label (finalLabels (from_problems_graph g).toProblemsGraph) (groupOf g x) =
      label (finalLabels (from_problems_graph g).toProblemsGraph) (groupOf g y))
    (hp : p ∈ parentsOf g x) :
    ∃ q ∈ parentsOf g y,
      label (finalLabels (from_problems_graph g).toProblemsGraph) (groupOf g p) =
        label (finalLabels (from_problems_graph g).toProblemsGraph) (groupOf g q) := by
  have hcgwf : WF (from_problems_graph g).toProblemsGraph := from_pg_WF hwf
  have hmx := groupOf_lt_cg (g := g) hx
  have hmy := groupOf_lt_cg (g := g) hy
  have hsig := finalLabels_sigKey hcgwf hmx hmy hE
  have hpar := (sigKey_eq_parts.1 hsig).2.1
  rcases mem_parentsOf.1 hp with ⟨s, hs⟩
  have hpmem : groupOf g p ∈
      parentsOf (from_problems_graph g).toProblemsGraph (groupOf g x) :=
    mem_parentsOf.2 ⟨s, from_pg_edge_up hs⟩
  have hin : label (finalLabels (from_problems_graph g).toProblemsGraph) (groupOf g p) ∈
      parentSig (from_problems_graph g).toProblemsGraph
        (finalLabels (from_problems_graph g).toProblemsGraph) (groupOf g x) :=
    mem_parentSig.2 ⟨groupOf g p, hpmem, rfl⟩
  rw [hpar] at hin
  rcases mem_parentSig.1 hin with ⟨W, hW, hWlab⟩
  rcases mem_parentsOf.1 hW with ⟨s2, hs2⟩
  rcases from_pg_edge_down (g := g) hs2 with ⟨u, w, s3, hgw, heq⟩
  have hWu : W = groupOf g u := congrArg (fun t => t.1) heq
  have hwy : groupOf g w = groupOf g y := (congrArg (fun t => t.2.1) heq).symm
  have hun : u < g.nodes.length := (hwf.1 _ hgw).1
  have hwn : w < g.nodes.length := (hwf.1 _ hgw).2
  have hLwy : label (finalLabels g) w = label (finalLabels g) y :=
    (groupOf_eq_iff hwn hy).1 hwy
  have hsg := finalLabels_sigKey hwf hwn hy hLwy
  have hparg := (sigKey_eq_parts.1 hsg).2.1
  have hup : u ∈ parentsOf g w := mem_parentsOf.2 ⟨s3, hgw⟩
  have hin2 : label (finalLabels g) u ∈ parentSig g (finalLabels g) w :=
    mem_parentSig.2 ⟨u, hup, rfl⟩
  rw [hparg] at hin2
  rcases mem_parentSig.1 hin2 with ⟨q, hq, hqlab⟩
  refine ⟨q, hq, ?_⟩
  have hqn : q < g.nodes.length := parentsOf_lt hwf hq
  have hquu : groupOf g q = groupOf g u := (groupOf_eq_iff hqn hun).2 hqlab
  rw [hquu, ← hWu]
  exact hWlab.symm

theorem conflict_cover {g : ProblemsGraph} (hwf : WF g) {x y c : Nat}
    (hx : x < g.nodes.length) (hy : y < g.nodes.length)
    (hE : label (finalLabels (from_problems_graph g).toProblemsGraph) (groupOf g x) =
      label (finalLabels (from_problems_graph g).toProblemsGraph) (groupOf g y))
    (hc : c ∈ conflictPartnersOf g x) :
    ∃ d ∈ conflictPartnersOf g y,
      label (finalLabels (from_problems_graph g).toProblemsGraph) (groupOf g c) =
        label (finalLabels (from_problems_graph g).toProblemsGraph) (groupOf g d) := by
  have hcgwf : WF (from_problems_graph g).toProblemsGraph := from_pg_WF hwf
  have hmx := groupOf_lt_cg (g := g) hx
  have hmy := groupOf_lt_cg (g := g) hy
  have hsig := finalLabels_sigKey hcgwf hmx hmy hE
  have hcs := (sigKey_eq_parts.1 hsig).2.2
  have hcmem : groupOf g c ∈
      conflictPartnersOf (from_problems_graph g).toProblemsGraph (groupOf g x) := by
    rcases mem_conflictPartnersOf.1 hc with hm | hm
    · exact mem_conflictPartnersOf.2 (Or.inl (from_pg_conflict_up hm))
    · exact mem_conflictPartnersOf.2 (Or.inr (from_pg_conflict_up hm))
  have hin : label (finalLabels (from_problems_graph g).toProblemsGraph) (groupOf g c) ∈
      conflictSig (from_problems_graph g).toProblemsGraph
        (finalLabels (from_problems_graph g).toProblemsGraph) (groupOf g x) :=
    mem_conflictSig.2 ⟨groupOf g c, hcmem, rfl⟩
  rw [hcs] at hin
  rcases mem_conflictSig.1 hin with ⟨W, hW, hWlab⟩
  rcases mem_conflictPartnersOf.1 hW with hm | hm
  · rcases from_pg_conflict_down (g := g) hm with ⟨a, b, hab, heq⟩
    have hay : groupOf g a = groupOf g y := (congrArg (fun t => t.1) heq).symm
    have hbW : W = groupOf g b := congrArg (fun t => t.2) heq
    have han : a < g.nodes.length := (hwf.2 _ hab).1
    have hbn : b < g.nodes.length := (hwf.2 _ hab).2
    have hLay : label (finalLabels g) a = label (finalLabels g) y :=
      (groupOf_eq_iff han hy).1 hay
    have hsg := finalLabels_sigKey hwf han hy hLay
    have hcg2 := (sigKey_eq_parts.1 hsg).2.2
    have hbp : b ∈ conflictPartnersOf g a := mem_conflictPartnersOf.2 (Or.inl hab)
    have hin2 : label (finalLabels g) b ∈ conflictSig g (finalLabels g) a :=
      mem_conflictSig.2 ⟨b, hbp, rfl⟩
    rw [hcg2] at hin2
    rcases mem_conflictSig.1 hin2 with ⟨d, hd, hdlab⟩
    refine ⟨d, hd, ?_⟩
    have hdn : d < g.nodes.length := conflictPartnersOf_lt hwf hd
    have hdb : groupOf g d = groupOf g b := (groupOf_eq_iff hdn hbn).2 hdlab
    rw [hdb, ← hbW]
    exact hWlab.symm
  · rcases from_pg_conflict_down (g := g) hm with ⟨a, b, hab, heq⟩
    have haW : W = groupOf g a := congrArg (fun t => t.1) heq
    have hby : groupOf g b = groupOf g y := (congrArg (fun t => t.2) heq).symm
    have han : a < g.nodes.length := (hwf.2 _ hab).1
    have hbn : b < g.nodes.length := (hwf.2 _ hab).2
    have hLby : label (finalLabels g) b = label (finalLabels g) y :=
      (groupOf_eq_iff hbn hy).1 hby
    have hsg := finalLabels_sigKey hwf hbn hy hLby
    have hcg2 := (sigKey_eq_parts.1 hsg).2.2
    have hap : a ∈ conflictPartnersOf g b := mem_conflictPartnersOf.2 (Or.inr hab)
    have hin2 : label (finalLabels g) a ∈ conflictSig g (finalLabels g) b :=
      mem_conflictSig.2 ⟨a, hap, rfl⟩
    rw [hcg2] at hin2
    rcases mem_conflictSig.1 hin2 with ⟨d, hd, hdlab⟩
    refine ⟨d, hd, ?_⟩
    have hdn : d < g.nodes.length := conflictPartnersOf_lt hwf hd
    have hda : groupOf g d = groupOf g a := (groupOf_eq_iff hdn han).2 hdlab
    rw [hda, ← haW]
    exact hWlab.symm

theorem pullback_eqv {g : ProblemsGraph} (hwf : WF g) :
    ∀ k x y, x < g.nodes.length → y < g.nodes.length →
      label (finalLabels (from_problems_graph g).toProblemsGraph) (groupOf g x) =
        label (finalLabels (from_problems_graph g).toProblemsGraph) (groupOf g y) →
      label (refineN g k) x = label (refineN g k) y := by
  intro k
  induction k with
  | zero =>
      intro x y hx hy hE
      have hmx := groupOf_lt_cg (g := g) hx
      have hmy := groupOf_lt_cg (g := g) hy
      have hvn := refineN_vnKey hmx hmy
        (from_problems_graph g).toProblemsGraph.nodes.length hE
      have h1 : vnKey g x = vnKey g y := by
        rw [← from_pg_node_vnKey hx, ← from_pg_node_vnKey hy]
        exact hvn
      exact (initLabels_eqv_iff hx hy).2 h1
  | succ k ih =>
      intro x y hx hy hE
      have hkey : sigKey g (refineN g k) x = sigKey g (refineN g k) y := by
        rw [sigKey_eq_parts]
        refine ⟨ih x y hx hy hE, ?_, ?_⟩
        · rw [parentSig_eq_iff]
          constructor
          · intro p hp
            obtain ⟨q, hq, hMq⟩ := parent_cover hwf hx hy hE hp
            exact ⟨q, hq,
              ih q p (parentsOf_lt hwf hq) (parentsOf_lt hwf hp) hMq.symm⟩
          · intro q hq
            obtain ⟨p, hp, hMp⟩ := parent_cover hwf hy hx hE.symm hq
            exact ⟨p, hp,
              ih p q (parentsOf_lt hwf hp) (parentsOf_lt hwf hq) hMp.symm⟩
        · rw [conflictSig_eq_iff]
          constructor
          · intro p hp
            obtain ⟨q, hq, hMq⟩ := conflict_cover hwf hx hy hE hp
            exact ⟨q, hq,
              ih q p (conflictPartnersOf_lt hwf hq)
                (conflictPartnersOf_lt hwf hp) hMq.symm⟩
          · intro q hq
            obtain ⟨p, hp, hMp⟩ := conflict_cover hwf hy hx hE.symm hq
            exact ⟨p, hp,
              ih p q (conflictPartnersOf_lt hwf hp)
                (conflictPartnersOf_lt hwf hq) hMp.symm⟩
      exact (refineStep_eqv_iff hx hy).2 hkey

/-- C2: compression is a graph homomorphism: every edge of the problems
graph reappears between the groups of its endpoints, with its specification
string, in the compressed graph; every compressed edge arises from a source
edge this way; every conflict pair reappears between the groups of its
members; and every compressed conflict pair arises from a source conflict
pair.  Nothing is dropped, nothing is invented. -/
theorem compression_homomorphism (g : ProblemsGraph) :
    (∀ e ∈ g.edges,
        (groupOf g e.1, groupOf g e.2.1, e.2.2) ∈ (from_problems_graph g).edges) ∧
      (∀ e ∈ (from_problems_graph g).edges,
        ∃ u v s, (u, v, s) ∈ g.edges ∧ e = (groupOf g u, groupOf g v, s)) ∧
      (∀ c ∈ g.conflicts.pairs,
        (groupOf g c.1, groupOf g c.2) ∈ (from_problems_graph g).conflicts.pairs) ∧
      ∀ c ∈ (from_problems_graph g).conflicts.pairs,
        ∃ a b, (a, b) ∈ g.conflicts.pairs ∧ c = (groupOf g a, groupOf g b) := by
  refine ⟨?_, ?_, ?_, ?_⟩
  · intro e he
    exact from_pg_edge_up (u := e.1) (v := e.2.1) (s := e.2.2) he
  · intro e he
    exact from_pg_edge_down he
  · intro c hc
    exact from_pg_conflict_up (a := c.1) (b := c.2) hc
  · intro c hc
    exact from_pg_conflict_down hc

/-- C2 witness: the homomorphism theorem applied to the sample graph and
its single edge. -/
theorem compression_homomorphism_witness :
    (0, 1, "a") ∈ sampleGraph.edges ∧
      (groupOf sampleGraph 0, groupOf sampleGraph 1, "a") ∈
        (from_problems_graph sampleGraph).edges :=
  ⟨by decide, (compression_homomorphism sampleGraph).1 (0, 1, "a") (by decide)⟩

/-- C3: compression is idempotent: on a well-formed problems graph,
re-running the merge-equivalence pass on the node signatures of the
already-compressed graph produces no further merges — any two compressed
nodes that the second pass labels equally are the same node. -/
theorem compression_idempotent (g : ProblemsGraph) (hwf : WF g) :
    ∀ U V, U < (from_problems_graph g).nodes.length →
      V < (from_problems_graph g).nodes.length →
      label (finalLabels (from_problems_graph g).toProblemsGraph) U =
        label (finalLabels (from_problems_graph g).toProblemsGraph) V →
      U = V := by
  intro U V hU hV hMeq
  rw [from_pg_nodes_length] at hU hV
  obtain ⟨x, hx, rfl⟩ := groupOf_surj hU
  obtain ⟨y, hy, rfl⟩ := groupOf_surj hV
  have hL := pullback_eqv hwf g.nodes.length x y hx hy hMeq
  exact (groupOf_eq_iff hx hy).2 hL

/-- C3 witness: the idempotence theorem applied to the sample graph, whose
well-formedness is decided, at the root group. -/
theorem compression_idempotent_witness :
    WF sampleGraph ∧ (0 : Nat) = 0 :=
  ⟨by decide,
    compression_idempotent sampleGraph (by decide) 0 0 (by decide) (by decide) rfl⟩

end Mamba
